import Mathlib

/-!
Verification development for the content-addressable object core of the
code-storage-server repository (crates/core: hash.rs, object.rs, compression.rs).

Byte sequences are modelled as `List Nat` with values below 256; Rust `String`
values (names, digests, messages) are modelled through their UTF-8 byte lists,
so Rust byte-lexicographic string comparison is list-lexicographic comparison
here.  All definitions are executable and kernel-reducible (structural
recursion only).
-/

set_option maxRecDepth 100000

namespace CTS

/-! ## Digest engine (crates/core/src/hash.rs)

`Hasher::hash_bytes` computes SHA-256 (via the sha2 crate) and hex-encodes the
32-byte result in lowercase.  SHA-256 is embedded here directly (FIPS 180-4),
operating on 32-bit words represented as `Nat` reduced mod 2^32. -/

def M32 : Nat := 4294967296

def rotr (n x : Nat) : Nat := (x >>> n) ||| ((x <<< (32 - n)) % M32)

def bsig0 (x : Nat) : Nat := (rotr 2 x) ^^^ (rotr 13 x) ^^^ (rotr 22 x)

def bsig1 (x : Nat) : Nat := (rotr 6 x) ^^^ (rotr 11 x) ^^^ (rotr 25 x)

def ssig0 (x : Nat) : Nat := (rotr 7 x) ^^^ (rotr 18 x) ^^^ (x >>> 3)

def ssig1 (x : Nat) : Nat := (rotr 17 x) ^^^ (rotr 19 x) ^^^ (x >>> 10)

def chF (x y z : Nat) : Nat := (x &&& y) ^^^ ((x ^^^ 4294967295) &&& z)

def majF (x y z : Nat) : Nat := (x &&& y) ^^^ (x &&& z) ^^^ (y &&& z)

def shaK : List Nat :=
  [1116352408, 1899447441, 3049323471, 3921009573, 961987163,
   1508970993, 2453635748, 2870763221, 3624381080, 310598401,
   607225278, 1426881987, 1925078388, 2162078206, 2614888103,
   3248222580, 3835390401, 4022224774, 264347078, 604807628,
   770255983, 1249150122, 1555081692, 1996064986, 2554220882,
   2821834349, 2952996808, 3210313671, 3336571891, 3584528711,
   113926993, 338241895, 666307205, 773529912, 1294757372,
   1396182291, 1695183700, 1986661051, 2177026350, 2456956037,
   2730485921, 2820302411, 3259730800, 3345764771, 3516065817,
   3600352804, 4094571909, 275423344, 430227734, 506948616,
   659060556, 883997877, 958139571, 1322822218, 1537002063,
   1747873779, 1955562222, 2024104815, 2227730452, 2361852424,
   2428436474, 2756734187, 3204031479, 3329325298]

def shaH0 : List Nat :=
  [1779033703, 3144134277, 1013904242, 2773480762,
   1359893119, 2600822924, 528734635, 1541459225]

/-- Big-endian 8-byte encoding of a natural number (the length field of the
SHA-256 padding). -/
def be64 (n : Nat) : List Nat :=
  [n >>> 56 % 256, n >>> 48 % 256, n >>> 40 % 256, n >>> 32 % 256,
   n >>> 24 % 256, n >>> 16 % 256, n >>> 8 % 256, n % 256]

/-- Big-endian 4-byte encoding of a 32-bit word. -/
def be4 (n : Nat) : List Nat :=
  [n >>> 24 % 256, n >>> 16 % 256, n >>> 8 % 256, n % 256]

/-- SHA-256 message padding: append 0x80, zero bytes to 56 mod 64, then the
bit length as 8 big-endian bytes. -/
def shaPad (msg : List Nat) : List Nat :=
  msg ++ 128 :: List.replicate ((119 - msg.length % 64) % 64) 0 ++ be64 (msg.length * 8)

/-- Group bytes into big-endian 32-bit words. -/
def toWords : List Nat → List Nat
  | b0 :: b1 :: b2 :: b3 :: rest => (((b0 * 256 + b1) * 256 + b2) * 256 + b3) :: toWords rest
  | _ => []

/-- Message-schedule extension; `acc` holds words produced so far, newest
first, and `fuel` counts the words still to produce. -/
def schedAux : Nat → List Nat → List Nat
  | 0, acc => acc.reverse
  | fuel + 1, acc =>
      let w := (ssig1 (acc.getD 1 0) + acc.getD 6 0 + ssig0 (acc.getD 14 0) + acc.getD 15 0) % M32
      schedAux fuel (w :: acc)

def schedule (block : List Nat) : List Nat := schedAux 48 (toWords block).reverse

/-- One round of the SHA-256 compression function; the state is the list
[a,b,c,d,e,f,g,h], `kw` is the round constant paired with the schedule word. -/
def roundStep (st : List Nat) (kw : Nat × Nat) : List Nat :=
  let a := st.getD 0 0
  let b := st.getD 1 0
  let c := st.getD 2 0
  let d := st.getD 3 0
  let e := st.getD 4 0
  let f := st.getD 5 0
  let g := st.getD 6 0
  let h := st.getD 7 0
  let t1 := (h + bsig1 e + chF e f g + kw.1 + kw.2) % M32
  let t2 := (bsig0 a + majF a b c) % M32
  [(t1 + t2) % M32, a, b, c, (d + t1) % M32, e, f, g]

def compressBlock (hs block : List Nat) : List Nat :=
  let st := (shaK.zip (schedule block)).foldl roundStep hs
  List.zipWith (fun x y => (x + y) % M32) hs st

/-- Split the padded message into 64-byte blocks (`fuel` bounds the number of
iterations; `l.length` always suffices). -/
def chunksAux : Nat → List Nat → List (List Nat)
  | 0, _ => []
  | _ + 1, [] => []
  | fuel + 1, l => l.take 64 :: chunksAux fuel (l.drop 64)

/-- SHA-256 of a byte list, as the 32-byte digest. -/
def sha256 (msg : List Nat) : List Nat :=
  let padded := shaPad msg
  ((chunksAux padded.length padded).foldl compressBlock shaH0).foldr (fun w acc => be4 w ++ acc) []

/-- Lowercase hex digit for a value below 16 (0-9 then a-f), as an ASCII byte. -/
def hexDigit (n : Nat) : Nat := if n < 10 then 48 + n else 87 + n

/-- Lowercase hex encoding of a byte list (the hex crate's encode). -/
def hexEncode : List Nat → List Nat
  | [] => []
  | b :: r => hexDigit (b / 16) :: hexDigit (b % 16) :: hexEncode r

/-- Hasher::hash_bytes from crates/core/src/hash.rs: SHA-256 then lowercase
hex, a 64-character string modelled as its ASCII byte list. -/
def hash_bytes (data : List Nat) : List Nat := hexEncode (sha256 data)

/-- ASCII lowercase mapping on bytes.  Models Rust str::to_lowercase on the
ASCII fragment; every string this development lowercases (hex digests and
caller-supplied expected digests) is compared against a pure-ASCII digest, for
which the Unicode and ASCII mappings agree. -/
def asciiLower (l : List Nat) : List Nat :=
  l.map (fun b => if 65 ≤ b ∧ b ≤ 90 then b + 32 else b)

/-- ASCII uppercase mapping on bytes (Rust str::to_uppercase, ASCII fragment). -/
def asciiUpper (l : List Nat) : List Nat :=
  l.map (fun b => if 97 ≤ b ∧ b ≤ 122 then b - 32 else b)

/-- Characters of a hex digest are decimal digits or lowercase a-f. -/
def hexRange (c : Nat) : Prop := (48 ≤ c ∧ c ≤ 57) ∨ (97 ≤ c ∧ c ≤ 102)

/-- Hasher::verify from crates/core/src/hash.rs: recompute the digest and
compare with the lowercased expected string. -/
def verify (data expected : List Nat) : Bool :=
  hash_bytes data == asciiLower expected

/-! ## Object model (crates/core/src/object.rs) -/

inductive ObjectType where
  | Blob : ObjectType
  | Tree : ObjectType
  | Commit : ObjectType
deriving DecidableEq

/-- TreeEntry from object.rs; `name`, `hash` and `mode` are Rust Strings,
modelled as their UTF-8 byte lists. -/
structure TreeEntry where
  name : List Nat
  object_type : ObjectType
  hash : List Nat
  mode : List Nat
deriving DecidableEq

def TreeEntry.file (name hash : List Nat) : TreeEntry :=
  ⟨name, ObjectType.Blob, hash, [49, 48, 48, 54, 52, 52]⟩

def TreeEntry.directory (name hash : List Nat) : TreeEntry :=
  ⟨name, ObjectType.Tree, hash, [48, 52, 48, 48, 48, 48]⟩

/-- Byte-lexicographic comparison of names; Rust String Ord compares UTF-8
bytes lexicographically, which is exactly this on the byte-list model. -/
def nameLe : List Nat → List Nat → Bool
  | [], _ => true
  | _ :: _, [] => false
  | a :: as', b :: bs' => if a < b then true else if b < a then false else nameLe as' bs'

/-- Stable insertion of an entry into a name-sorted list: the entry goes in
front of the first strictly-or-equally later-named element it precedes. -/
def insertByName (e : TreeEntry) : List TreeEntry → List TreeEntry
  | [] => [e]
  | x :: r => if nameLe e.name x.name then e :: x :: r else x :: insertByName e r

/-- Stable sort by entry name.  Models Rust Vec::sort_by with
`a.name.cmp(&b.name)`, which is specified to be a stable sort; insertion sort
is extensionally the stable sort for this comparator. -/
def sortByName : List TreeEntry → List TreeEntry
  | [] => []
  | e :: r => insertByName e (sortByName r)

structure Tree where
  entries : List TreeEntry
  hash : Option (List Nat)
deriving DecidableEq

def Tree.new : Tree := ⟨[], none⟩

/-- Tree::with_entries: sort by name, digest cache unset. -/
def Tree.with_entries (entries : List TreeEntry) : Tree := ⟨sortByName entries, none⟩

/-- Tree::add_entry: push, re-sort by name, invalidate the cached digest. -/
def Tree.add_entry (t : Tree) (e : TreeEntry) : Tree :=
  ⟨sortByName (t.entries ++ [e]), none⟩

/-- Tree::find: first entry with the given name, in stored order. -/
def Tree.find (t : Tree) (n : List Nat) : Option TreeEntry :=
  t.entries.find? (fun e => e.name == n)

def Tree.len (t : Tree) : Nat := t.entries.length

def Tree.is_empty (t : Tree) : Bool := t.entries.isEmpty

/-- ASCII decimal digits of a natural number (Rust format of a usize); the
first argument is recursion fuel, always called with fuel = n. -/
def natToDecAux : Nat → Nat → List Nat
  | 0, n => [48 + n % 10]
  | fuel + 1, n => if n < 10 then [48 + n] else natToDecAux fuel (n / 10) ++ [48 + n % 10]

def natToDec (n : Nat) : List Nat := natToDecAux n n

/-- Per-entry wire form inside a tree payload: "mode name\0" followed by the
bytes of the referenced digest as hex text (object.rs pushes
entry.hash.as_bytes(), i.e. the hex string itself, not raw digest bytes). -/
def treePayload : List TreeEntry → List Nat
  | [] => []
  | e :: r => e.mode ++ 32 :: e.name ++ 0 :: e.hash ++ treePayload r

/-- Digest input of a tree as built in Tree::hash: "tree <len>\0" + payload
over the stored entry order. -/
def treeHashInput (entries : List TreeEntry) : List Nat :=
  [116, 114, 101, 101, 32] ++ natToDec (treePayload entries).length ++ 0 :: treePayload entries

def Tree.computeHash (t : Tree) : List Nat := hash_bytes (treeHashInput t.entries)

/-- Tree::hash(&mut self): return the cached digest or compute and cache it;
modelled as value-plus-updated-entity state passing. -/
def Tree.hashM (t : Tree) : List Nat × Tree :=
  match t.hash with
  | some h => (h, t)
  | none => (t.computeHash, ⟨t.entries, some t.computeHash⟩)

structure Blob where
  content : List Nat
  hash : Option (List Nat)
deriving DecidableEq

def Blob.new (content : List Nat) : Blob := ⟨content, none⟩

/-- Blob::with_hash: construct with a caller-supplied digest, unverified. -/
def Blob.with_hash (content h : List Nat) : Blob := ⟨content, some h⟩

def Blob.size (b : Blob) : Nat := b.content.length

/-- Digest input of a blob: "blob <len>\0" + content. -/
def blobHashInput (content : List Nat) : List Nat :=
  [98, 108, 111, 98, 32] ++ natToDec content.length ++ 0 :: content

def Blob.computeHash (b : Blob) : List Nat := hash_bytes (blobHashInput b.content)

/-- Blob::hash(&mut self), state-passing as for Tree. -/
def Blob.hashM (b : Blob) : List Nat × Blob :=
  match b.hash with
  | some h => (h, b)
  | none => (b.computeHash, ⟨b.content, some b.computeHash⟩)

def Blob.cached_hash (b : Blob) : Option (List Nat) := b.hash

structure Commit where
  tree_hash : List Nat
  parent_hash : Option (List Nat)
  message : List Nat
  author_name : List Nat
  author_email : List Nat
  timestamp : List Nat
  hash : Option (List Nat)
deriving DecidableEq

def Commit.new (tree_hash : List Nat) (parent_hash : Option (List Nat))
    (message author_name author_email timestamp : List Nat) : Commit :=
  ⟨tree_hash, parent_hash, message, author_name, author_email, timestamp, none⟩

def Commit.initial (tree_hash message author_name author_email timestamp : List Nat) : Commit :=
  Commit.new tree_hash none message author_name author_email timestamp

def Commit.is_initial (c : Commit) : Bool := c.parent_hash.isNone

/-- Formatted text block hashed by Commit::hash:
"tree T\nparent P\nauthor N <E>\ndate D\n\nM" with P empty when absent. -/
def commitContent (c : Commit) : List Nat :=
  [116, 114, 101, 101, 32] ++ c.tree_hash
    ++ [10, 112, 97, 114, 101, 110, 116, 32] ++ c.parent_hash.getD []
    ++ [10, 97, 117, 116, 104, 111, 114, 32] ++ c.author_name
    ++ [32, 60] ++ c.author_email ++ [62]
    ++ [10, 100, 97, 116, 101, 32] ++ c.timestamp
    ++ [10, 10] ++ c.message

/-- Digest input of a commit: "commit <len>\0" + formatted content. -/
def commitHashInput (c : Commit) : List Nat :=
  [99, 111, 109, 109, 105, 116, 32] ++ natToDec (commitContent c).length ++ 0 :: commitContent c

def Commit.computeHash (c : Commit) : List Nat := hash_bytes (commitHashInput c)

/-- Commit::hash(&mut self), state-passing as for Tree. -/
def Commit.hashM (c : Commit) : List Nat × Commit :=
  match c.hash with
  | some h => (h, c)
  | none => (c.computeHash,
      ⟨c.tree_hash, c.parent_hash, c.message, c.author_name, c.author_email,
       c.timestamp, some c.computeHash⟩)

def Commit.cached_hash (c : Commit) : Option (List Nat) := c.hash

/-- Direct assignment to the public `message` field of Commit (all six
content fields of Commit are `pub` in object.rs, so Rust callers can mutate
them in place without any invalidation path). -/
def Commit.set_message (c : Commit) (m : List Nat) : Commit :=
  { c with message := m }

/-! ## Consistency of the digest caches (for the invariant claims)

An entity cache is consistent when any stored digest equals the digest of the
current content-bearing fields. -/

def Blob.consistent (b : Blob) : Prop :=
  ∀ h, b.hash = some h → h = b.computeHash

def Tree.consistent (t : Tree) : Prop :=
  ∀ h, t.hash = some h → h = t.computeHash

def Commit.consistent (c : Commit) : Prop :=
  ∀ h, c.hash = some h → h = c.computeHash

/-! ## Spec-side tree encoding (for the refinement claim C2)

Written from the words of the specification (§4.2): header
"tree <payload-length>\0", payload the concatenation, for each entry in
name-sorted order, of "<mode> <name>\0" followed by the digest hex text. -/

/-- Payload of one entry, per the spec sentence. -/
def specEntryLine (e : TreeEntry) : List Nat :=
  e.mode ++ [32] ++ e.name ++ [0] ++ e.hash

/-- Full spec-side canonical encoding of a set of entries. -/
def specTreeEncoding (entries : List TreeEntry) : List Nat :=
  let payload := ((sortByName entries).map specEntryLine).flatten
  [116, 114, 101, 101, 32] ++ natToDec payload.length ++ [0] ++ payload

/-! ## Compression codec (crates/core/src/compression.rs)

Modelled from the spec: the deflate engine itself is the external flate2
crate, not code under src/, so per §4.6 the codec is modelled as the standard
zlib container (2-byte header, deflate stream, 4-byte Adler-32 checksum,
§4.6/§6), with the deflate stream modelled as a single stored block (valid
zlib, sufficient for inputs below 64 KiB).  Error kinds model io::ErrorKind:
corrupt data surfaces from the decoder as InvalidInput (the flate2 conversion
of DecompressError), truncated input as UnexpectedEof, and the size-limit
check in decompress_with_limit constructs InvalidData directly in src. -/

inductive ErrKind where
  | invalidInput : ErrKind
  | invalidData : ErrKind
  | unexpectedEof : ErrKind
deriving DecidableEq

instance {ε α : Type} [DecidableEq ε] [DecidableEq α] : DecidableEq (Except ε α) := fun x y =>
  match x, y with
  | .error a, .error b =>
      if h : a = b then isTrue (by rw [h])
      else isFalse (by intro t; cases t; exact h rfl)
  | .error _, .ok _ => isFalse (by intro t; cases t)
  | .ok _, .error _ => isFalse (by intro t; cases t)
  | .ok a, .ok b =>
      if h : a = b then isTrue (by rw [h])
      else isFalse (by intro t; cases t; exact h rfl)

/-- Adler-32 checksum of a byte list (zlib trailer). -/
def adler32 (data : List Nat) : Nat :=
  let ab := data.foldl (fun (ab : Nat × Nat) b =>
    ((ab.1 + b) % 65521, (ab.2 + (ab.1 + b) % 65521) % 65521)) (1, 0)
  ab.2 * 65536 + ab.1

/-- Little-endian 2-byte encoding (stored-block LEN and NLEN fields). -/
def le16 (n : Nat) : List Nat := [n % 256, n / 256 % 256]

/-- FLEVEL bits of the zlib header as a function of the compression level. -/
def flevelOf (level : Nat) : Nat :=
  if level ≤ 1 then 0 else if level ≤ 5 then 1 else if level = 6 then 2 else 3

/-- Second zlib header byte: FLEVEL bits plus the check value making
CMF*256+FLG divisible by 31. -/
def zlibFlg (level : Nat) : Nat :=
  flevelOf level * 64 + (31 - (120 * 256 + flevelOf level * 64) % 31) % 31

/-- compress_with_level, under the stored-block model: zlib header, one final
stored block (type byte 1 = BFINAL set, BTYPE 00), LEN/NLEN, raw data,
big-endian Adler-32 trailer. -/
def compress_with_level (data : List Nat) (level : Nat) : List Nat :=
  120 :: zlibFlg level :: 1 :: (le16 data.length ++ le16 (65535 - data.length)
    ++ data ++ be4 (adler32 data))

/-- compress from compression.rs: default level 6. -/
def compress (data : List Nat) : List Nat := compress_with_level data 6

/-- Full zlib decode (the decoder behind `decompress`): check the header
(CM = 8, header checksum, no preset dictionary), the stored-block framing and
the Adler-32 trailer, and return the payload.  Elements of the byte-list
model that exceed 255 correspond to no real byte string; the decoder
interprets the seven header bytes numerically and therefore rejects non-byte
values, keeping the parsed 16-bit LEN and NLEN fields in range. -/
def zlibInflate (data : List Nat) : Except ErrKind (List Nat) :=
  match data with
  | cmf :: flg :: btype :: l0 :: l1 :: n0 :: n1 :: body =>
    if cmf < 256 ∧ flg < 256 ∧ btype < 256 ∧ l0 < 256 ∧ l1 < 256 ∧ n0 < 256 ∧ n1 < 256 then
      if cmf % 16 = 8 ∧ (cmf * 256 + flg) % 31 = 0 ∧ flg / 32 % 2 = 0 ∧ btype = 1 then
        if n0 + 256 * n1 = 65535 - (l0 + 256 * l1) then
          if l0 + 256 * l1 + 4 ≤ body.length then
            if (body.drop (l0 + 256 * l1)).take 4 = be4 (adler32 (body.take (l0 + 256 * l1)))
              then .ok (body.take (l0 + 256 * l1))
            else .error .invalidInput
          else .error .unexpectedEof
        else .error .invalidInput
      else .error .invalidInput
    else .error .invalidInput
  | _ => .error .invalidInput

/-- decompress from compression.rs: read the whole stream. -/
def decompress (data : List Nat) : Except ErrKind (List Nat) := zlibInflate data

/-- The decoder wrapped in Read::take(k) then read_to_end: at most `k` output
bytes are produced; if the stream is cut off by the limit, the trailing
checksum is never reached, hence not verified.  A zero budget never pulls
from the decoder at all (Take returns 0 immediately), so it yields the empty
buffer whatever the input.  Header bytes are checked to be bytes, as in
zlibInflate. -/
def zlibInflateTake (data : List Nat) (k : Nat) : Except ErrKind (List Nat) :=
  if k = 0 then .ok []
  else
    match data with
    | cmf :: flg :: btype :: l0 :: l1 :: n0 :: n1 :: body =>
      if cmf < 256 ∧ flg < 256 ∧ btype < 256 ∧ l0 < 256 ∧ l1 < 256 ∧ n0 < 256 ∧ n1 < 256 then
        if cmf % 16 = 8 ∧ (cmf * 256 + flg) % 31 = 0 ∧ flg / 32 % 2 = 0 ∧ btype = 1 then
          if n0 + 256 * n1 = 65535 - (l0 + 256 * l1) then
            if k ≤ l0 + 256 * l1 then
              if k ≤ body.length then .ok (body.take k) else .error .unexpectedEof
            else
              if l0 + 256 * l1 + 4 ≤ body.length then
                if (body.drop (l0 + 256 * l1)).take 4 = be4 (adler32 (body.take (l0 + 256 * l1)))
                  then .ok (body.take (l0 + 256 * l1))
                else .error .invalidInput
              else .error .unexpectedEof
          else .error .invalidInput
        else .error .invalidInput
      else .error .invalidInput
    | _ => .error .invalidInput

/-- Largest value of usize on the 64-bit target. -/
def USIZE_MAX : Nat := 18446744073709551615

/-- decompress_with_limit from compression.rs: read at most max_size + 1
bytes through the taken reader, then fail with an InvalidData error when the
buffer exceeds max_size.  The source computes max_size + 1 in usize before
widening to u64, so at max_size = usize::MAX the addition overflows: release
builds wrap to take(0), whose read_to_end returns the empty buffer in place
of the decompressed bytes (debug builds panic on the overflow).  The model
follows the release, wrapping semantics. -/
def decompress_with_limit (data : List Nat) (max_size : Nat) : Except ErrKind (List Nat) :=
  match zlibInflateTake data ((max_size + 1) % (USIZE_MAX + 1)) with
  | .error e => .error e
  | .ok buf => if buf.length > max_size then .error .invalidData else .ok buf

/-- compression_ratio from compression.rs.  The source computes in f64; the
model uses exact rationals.  On the inputs appearing in the theorems below
(and in the counterexample 1 - 200/100) the f64 computation is exact, and
for compressed ≤ original the f64 result also stays inside [0, 1] because
rounding is monotone and 0.0 and 1.0 are representable. -/
def compression_ratio (original_size compressed_size : Nat) : ℚ :=
  if original_size = 0 then 0
  else 1 - (compressed_size : ℚ) / (original_size : ℚ)

/-- is_compression_effective from compression.rs. -/
def is_compression_effective (original_size compressed_size : Nat) : Bool :=
  compressed_size < original_size

/-! ## Concrete objects used by counterexamples -/

/-- Entry named "a" with digest text "h1". -/
def entryA1 : TreeEntry := TreeEntry.file [97] [104, 49]

/-- A second, distinct entry also named "a", with digest text "h2". -/
def entryA2 : TreeEntry := TreeEntry.file [97] [104, 50]

/-- A commit ("t", no parent, message "m", author "a" <"e">, date "d") whose
digest has been computed and cached, after which the public message field is
overwritten with "x" the way Rust callers can. -/
def staleCommit : Commit :=
  Commit.set_message ((Commit.initial [116] [109] [97] [101] [100]).hashM).2 [120]

/-- The pairwise ordering invariant maintained on tree entry lists. -/
def sortedByName (l : List TreeEntry) : Prop :=
  l.Pairwise (fun a b => nameLe a.name b.name = true)

/-- Entry names are pairwise distinct. -/
def namesNodup (l : List TreeEntry) : Prop :=
  l.Pairwise (fun a b => a.name ≠ b.name)

/-! ## Order properties of the name comparison -/

theorem nameLe_refl (a : List Nat) : nameLe a a = true := by
  induction a with
  | nil => rfl
  | cons x xs ih => simp [nameLe, ih]

theorem nameLe_trans : ∀ a b c : List Nat,
    nameLe a b = true → nameLe b c = true → nameLe a c = true := by
  intro a
  induction a with
  | nil => intro b c _ _; rfl
  | cons x xs ih =>
    intro b c hab hbc
    cases b with
    | nil => simp [nameLe] at hab
    | cons y ys =>
      cases c with
      | nil => simp [nameLe] at hbc
      | cons z zs =>
        simp only [nameLe] at hab hbc ⊢
        split_ifs at hab hbc ⊢ <;>
          first
          | rfl
          | omega
          | exact ih ys zs hab hbc

theorem nameLe_total : ∀ a b : List Nat, nameLe a b = false → nameLe b a = true := by
  intro a
  induction a with
  | nil => intro b h; simp [nameLe] at h
  | cons x xs ih =>
    intro b h
    cases b with
    | nil => rfl
    | cons y ys =>
      simp only [nameLe] at h ⊢
      split_ifs at h ⊢ <;>
        first
        | rfl
        | omega
        | exact ih ys h

theorem nameLe_antisymm : ∀ a b : List Nat,
    nameLe a b = true → nameLe b a = true → a = b := by
  intro a
  induction a with
  | nil =>
    intro b _ hba
    cases b with
    | nil => rfl
    | cons y ys => simp [nameLe] at hba
  | cons x xs ih =>
    intro b hab hba
    cases b with
    | nil => simp [nameLe] at hab
    | cons y ys =>
      simp only [nameLe] at hab hba
      split_ifs at hab hba <;>
        first
        | omega
        | (have hx : x = y := by omega
           rw [hx, ih ys hab hba])

/-! ## Permutation and sortedness of the stable sort -/

theorem insertByName_perm (e : TreeEntry) (l : List TreeEntry) :
    (insertByName e l).Perm (e :: l) := by
  induction l with
  | nil => exact List.Perm.refl _
  | cons x r ih =>
    simp only [insertByName]
    split
    · exact List.Perm.refl _
    · exact ((ih.cons x).trans (List.Perm.swap e x r))

theorem sortByName_perm (l : List TreeEntry) : (sortByName l).Perm l := by
  induction l with
  | nil => exact List.Perm.refl _
  | cons e r ih =>
    exact (insertByName_perm e (sortByName r)).trans (ih.cons e)

theorem insertByName_pairwise (e : TreeEntry) (l : List TreeEntry)
    (h : sortedByName l) : sortedByName (insertByName e l) := by
  induction l with
  | nil => simp [insertByName, sortedByName]
  | cons x r ih =>
    simp only [insertByName]
    rcases List.pairwise_cons.mp h with ⟨hx, hr⟩
    split
    · rename_i hle
      refine List.pairwise_cons.mpr ⟨?_, h⟩
      intro b hb
      rcases List.mem_cons.mp hb with hbx | hbr
      · rw [hbx]; exact hle
      · exact nameLe_trans _ _ _ hle (hx b hbr)
    · rename_i hnle
      refine List.pairwise_cons.mpr ⟨?_, ih hr⟩
      intro b hb
      have hb2 : b ∈ e :: r := (insertByName_perm e r).mem_iff.mp hb
      rcases List.mem_cons.mp hb2 with hbe | hbr
      · rw [hbe]
        exact nameLe_total _ _ (Bool.not_eq_true _ ▸ hnle)
      · exact hx b hbr

theorem sortByName_sorted (l : List TreeEntry) : sortedByName (sortByName l) := by
  induction l with
  | nil => simp [sortByName, sortedByName]
  | cons e r ih => exact insertByName_pairwise e (sortByName r) ih

theorem sortByName_of_sorted : ∀ l : List TreeEntry, sortedByName l → sortByName l = l := by
  intro l h
  induction l with
  | nil => rfl
  | cons e r ih =>
    rcases List.pairwise_cons.mp h with ⟨he, hr⟩
    simp only [sortByName]
    rw [ih hr]
    cases r with
    | nil => rfl
    | cons x r2 =>
      simp only [insertByName]
      rw [if_pos (he x (by simp))]

/-- Stable-sort characterization used by add_entry: sorting a sorted list
with one element pushed at the back inserts that element after every existing
entry whose name compares less-or-equal. -/
theorem sortByName_append_single (e : TreeEntry) :
    ∀ l : List TreeEntry, sortedByName l →
    sortByName (l ++ [e]) =
      l.takeWhile (fun x => nameLe x.name e.name) ++
        e :: l.dropWhile (fun x => nameLe x.name e.name) := by
  intro l
  induction l with
  | nil => intro _; rfl
  | cons a l' ih =>
    intro h
    rcases List.pairwise_cons.mp h with ⟨ha, hl'⟩
    have h1 : sortByName ((a :: l') ++ [e]) = insertByName a (sortByName (l' ++ [e])) := rfl
    rw [h1, ih hl', List.takeWhile_cons, List.dropWhile_cons]
    by_cases hae : nameLe a.name e.name = true
    · simp only [hae, if_true]
      cases l' with
      | nil => simp [insertByName, hae]
      | cons b l'' =>
        rw [List.takeWhile_cons, List.dropWhile_cons]
        have hab : nameLe a.name b.name = true := ha b (by simp)
        by_cases hbe : nameLe b.name e.name = true
        · simp only [hbe, if_true, List.cons_append]
          simp [insertByName, hab]
        · have hbe' : nameLe b.name e.name = false := Bool.not_eq_true _ ▸ hbe
          simp only [hbe', Bool.false_eq_true, if_false, List.nil_append]
          simp [insertByName, hae]
    · have hae' : nameLe a.name e.name = false := Bool.not_eq_true _ ▸ hae
      simp only [hae', Bool.false_eq_true, if_false, List.nil_append]
      cases l' with
      | nil => simp [insertByName, hae']
      | cons b l'' =>
        have hab : nameLe a.name b.name = true := ha b (by simp)
        have hbe' : nameLe b.name e.name = false := by
          cases hqb : nameLe b.name e.name with
          | false => rfl
          | true => exact absurd (nameLe_trans _ _ _ hab hqb) hae
        rw [List.takeWhile_cons, List.dropWhile_cons]
        simp only [hbe', Bool.false_eq_true, if_false, List.nil_append]
        simp [insertByName, hae', hab]

/-- In a sorted entry list, the first entry named like `e` stays the first
match after stable insertion of `e`. -/
theorem find?_insert_stable (e a : TreeEntry) :
    ∀ l : List TreeEntry, sortedByName l →
    l.find? (fun x => x.name == e.name) = some a →
    (l.takeWhile (fun x => nameLe x.name e.name) ++
      e :: l.dropWhile (fun x => nameLe x.name e.name)).find?
        (fun x => x.name == e.name) = some a := by
  intro l
  induction l with
  | nil => intro _ hf; simp at hf
  | cons x r ih =>
    intro h hf
    rcases List.pairwise_cons.mp h with ⟨hx, hr⟩
    rw [List.takeWhile_cons, List.dropWhile_cons]
    by_cases hpx : (x.name == e.name) = true
    · have hq : nameLe x.name e.name = true := by
        have hxe : x.name = e.name := by simpa using hpx
        rw [hxe]; exact nameLe_refl _
      simp only [List.find?_cons, hpx] at hf
      simp only [hq, if_true, List.cons_append, List.find?_cons, hpx]
      exact hf
    · have hpx' : (x.name == e.name) = false := Bool.not_eq_true _ ▸ hpx
      have hf' : r.find? (fun x => x.name == e.name) = some a := by
        simpa only [List.find?_cons, hpx'] using hf
      have ha_mem : a ∈ r := List.mem_of_find?_eq_some hf'
      have hpa : (a.name == e.name) = true := (List.find?_eq_some.mp hf').1
      have hq : nameLe x.name e.name = true := by
        have h1 : nameLe x.name a.name = true := hx a ha_mem
        have h2 : a.name = e.name := by simpa using hpa
        rwa [h2] at h1
      simp only [hq, if_true, List.cons_append, List.find?_cons, hpx']
      exact ih hr hf'

/-- Two sorted permutations of the same entries are equal when names are
pairwise distinct. -/
theorem sorted_nodup_perm_eq :
    ∀ l₁ l₂ : List TreeEntry, l₁.Perm l₂ →
    sortedByName l₁ → sortedByName l₂ → namesNodup l₁ → l₁ = l₂ := by
  intro l₁
  induction l₁ with
  | nil =>
    intro l₂ hp _ _ _
    exact hp.nil_eq
  | cons a t₁ ih =>
    intro l₂ hp h₁ h₂ hnd
    cases l₂ with
    | nil =>
      have := hp.length_eq
      simp at this
    | cons b t₂ =>
      by_cases hab : a = b
      · subst hab
        have hp' := hp.cons_inv
        rw [ih t₂ hp' (List.pairwise_cons.mp h₁).2 (List.pairwise_cons.mp h₂).2
          (List.pairwise_cons.mp hnd).2]
      · have haz : a ∈ t₂ := by
          have hmem : a ∈ b :: t₂ := hp.mem_iff.mp (by simp)
          rcases List.mem_cons.mp hmem with hh | hh
          · exact absurd hh hab
          · exact hh
        have hbz : b ∈ t₁ := by
          have hmem : b ∈ a :: t₁ := hp.mem_iff.mpr (by simp)
          rcases List.mem_cons.mp hmem with hh | hh
          · exact absurd hh.symm hab
          · exact hh
        have h1 : nameLe a.name b.name = true := (List.pairwise_cons.mp h₁).1 b hbz
        have h2 : nameLe b.name a.name = true := (List.pairwise_cons.mp h₂).1 a haz
        have heq : a.name = b.name := nameLe_antisymm _ _ h1 h2
        have hne : a.name ≠ b.name := (List.pairwise_cons.mp hnd).1 b hbz
        contradiction

theorem namesNodup_of_perm {l₁ l₂ : List TreeEntry} (hp : l₁.Perm l₂)
    (h : namesNodup l₁) : namesNodup l₂ :=
  (hp.pairwise_iff (fun hxy he => hxy he.symm)).mp h

/-- Entries accumulated by repeated add_entry are a permutation of the start
entries followed by the added ones. -/
theorem foldl_add_entry_perm :
    ∀ (l : List TreeEntry) (t : Tree),
    (List.foldl Tree.add_entry t l).entries.Perm (t.entries ++ l) := by
  intro l
  induction l with
  | nil => intro t; simp
  | cons e r ih =>
    intro t
    have step : (Tree.add_entry t e).entries.Perm (t.entries ++ [e]) :=
      sortByName_perm _
    have p1 : (List.foldl Tree.add_entry (Tree.add_entry t e) r).entries.Perm
        ((Tree.add_entry t e).entries ++ r) := ih (Tree.add_entry t e)
    have p2 : ((Tree.add_entry t e).entries ++ r).Perm ((t.entries ++ [e]) ++ r) :=
      step.append_right r
    have p3 : (t.entries ++ [e]) ++ r = t.entries ++ (e :: r) := by simp
    exact p3 ▸ (p1.trans p2)

theorem foldl_add_entry_sorted :
    ∀ (l : List TreeEntry) (t : Tree), sortedByName t.entries →
    sortedByName (List.foldl Tree.add_entry t l).entries := by
  intro l
  induction l with
  | nil => intro t h; exact h
  | cons e r ih =>
    intro t _
    exact ih (Tree.add_entry t e) (sortByName_sorted _)

/-- The per-entry serialization in Tree::hash matches the spec-side flatten
form. -/
theorem treePayload_eq_spec :
    ∀ l : List TreeEntry, treePayload l = (l.map specEntryLine).flatten := by
  intro l
  induction l with
  | nil => rfl
  | cons e r ih => simp [treePayload, specEntryLine, ih]

/-! ## Codec lemmas -/

theorem zlibFlg_checks (level : Nat) :
    (120 * 256 + zlibFlg level) % 31 = 0 ∧ zlibFlg level / 32 % 2 = 0 ∧
      zlibFlg level < 256 := by
  have hflev : flevelOf level < 4 := by
    unfold flevelOf; split_ifs <;> omega
  unfold zlibFlg
  revert hflev
  generalize flevelOf level = f
  intro hf
  interval_cases f <;> decide

/-- The compressed container in cons-normal form. -/
theorem compress_with_level_cons (data : List Nat) (level : Nat) :
    compress_with_level data level =
      120 :: zlibFlg level :: 1 :: data.length % 256 :: data.length / 256 % 256 ::
      (65535 - data.length) % 256 :: (65535 - data.length) / 256 % 256 ::
      (data ++ be4 (adler32 data)) := rfl

theorem len_field_eq {n : Nat} (h : n ≤ 65535) :
    n % 256 + 256 * (n / 256 % 256) = n := by
  have h2 : n / 256 < 256 := by omega
  rw [Nat.mod_eq_of_lt h2]
  exact Nat.mod_add_div n 256

/-- Round trip of the modelled codec: inflating a compressed container
restores the input exactly (single stored block, so inputs must fit in the
16-bit LEN field; all inputs in the claims do). -/
theorem zlibInflate_compress (data : List Nat) (level : Nat)
    (hlen : data.length ≤ 65535) :
    zlibInflate (compress_with_level data level) = .ok data := by
  have hhdr := zlibFlg_checks level
  rw [compress_with_level_cons]
  simp only [zlibInflate]
  rw [if_pos ⟨by decide, hhdr.2.2, by decide, by omega, by omega, by omega, by omega⟩]
  rw [if_pos ⟨by decide, hhdr.1, hhdr.2.1, by trivial⟩]
  rw [len_field_eq hlen, len_field_eq (show 65535 - data.length ≤ 65535 by omega)]
  rw [if_pos rfl]
  rw [if_pos (by simp [be4])]
  rw [List.drop_left' rfl, List.take_left' rfl]
  rw [if_pos (List.take_of_length_le (by simp [be4]))]

/-- The limited reader never produces more than its byte budget. -/
theorem zlibInflateTake_length_le (data : List Nat) (k : Nat) (buf : List Nat)
    (h : zlibInflateTake data k = .ok buf) : buf.length ≤ k := by
  unfold zlibInflateTake at h
  by_cases hk : k = 0
  · rw [if_pos hk] at h
    cases h
    simp
  · rw [if_neg hk] at h
    split at h
    · split_ifs at h <;>
        first
        | (cases h; done)
        | (cases h; simp only [List.length_take]; omega)
    · cases h

/-- Under the single-stored-block model, a successful limited read never
exceeds the 16-bit LEN capacity. -/
theorem zlibInflateTake_ok_bound (data : List Nat) (k : Nat) (buf : List Nat)
    (h : zlibInflateTake data k = .ok buf) : buf.length ≤ 65535 := by
  unfold zlibInflateTake at h
  by_cases hk : k = 0
  · rw [if_pos hk] at h
    cases h
    simp
  · rw [if_neg hk] at h
    split at h
    · split_ifs at h <;>
        first
        | (cases h; done)
        | (cases h; simp only [List.length_take]; omega)
    · cases h

/-! ## Case-mapping lemmas for hex digests -/

theorem be4_mem_lt (w b : Nat) (h : b ∈ be4 w) : b < 256 := by
  simp only [be4, List.mem_cons, List.not_mem_nil, or_false] at h
  rcases h with h | h | h | h <;> (rw [h]; exact Nat.mod_lt _ (by omega))

theorem foldr_be4_lt : ∀ (ws : List Nat) (b : Nat),
    b ∈ ws.foldr (fun w acc => be4 w ++ acc) [] → b < 256 := by
  intro ws
  induction ws with
  | nil => intro b hb; simp at hb
  | cons w rest ih =>
    intro b hb
    simp only [List.foldr_cons, List.mem_append] at hb
    rcases hb with hb | hb
    · exact be4_mem_lt w b hb
    · exact ih b hb

theorem sha256_mem_lt (msg : List Nat) : ∀ b ∈ sha256 msg, b < 256 :=
  fun b hb => foldr_be4_lt _ b hb

theorem hexDigit_range : ∀ m, m < 16 → hexRange (hexDigit m) := by
  intro m hm
  unfold hexRange
  interval_cases m <;> decide

theorem hexEncode_range (bytes : List Nat) (hb : ∀ b ∈ bytes, b < 256) :
    ∀ c ∈ hexEncode bytes, hexRange c := by
  induction bytes with
  | nil => intro c hc; simp [hexEncode] at hc
  | cons b r ih =>
    intro c hc
    have hblt : b < 256 := hb b (by simp)
    simp only [hexEncode, List.mem_cons] at hc
    rcases hc with hc | hc | hc
    · rw [hc]; exact hexDigit_range _ (by omega)
    · rw [hc]; exact hexDigit_range _ (Nat.mod_lt _ (by omega))
    · exact ih (fun x hx => hb x (by simp [hx])) c hc

theorem asciiLower_fixed (l : List Nat) (h : ∀ c ∈ l, hexRange c) :
    asciiLower l = l := by
  induction l with
  | nil => rfl
  | cons c r ih =>
    have hc := h c (by simp)
    simp only [asciiLower, List.map_cons]
    have hhead : (if 65 ≤ c ∧ c ≤ 90 then c + 32 else c) = c := by
      rcases hc with hc | hc <;> rw [if_neg (by omega)]
    have ih2 := ih (fun x hx => h x (by simp [hx]))
    simp only [asciiLower] at ih2
    rw [hhead, ih2]

theorem asciiLower_asciiUpper_fixed (l : List Nat) (h : ∀ c ∈ l, hexRange c) :
    asciiLower (asciiUpper l) = l := by
  induction l with
  | nil => rfl
  | cons c r ih =>
    have hc := h c (by simp)
    simp only [asciiLower, asciiUpper, List.map_cons]
    have hhead : (if (65 ≤ if 97 ≤ c ∧ c ≤ 122 then c - 32 else c) ∧
        (if 97 ≤ c ∧ c ≤ 122 then c - 32 else c) ≤ 90 then
          (if 97 ≤ c ∧ c ≤ 122 then c - 32 else c) + 32
        else if 97 ≤ c ∧ c ≤ 122 then c - 32 else c) = c := by
      rcases hc with hc | hc
      · have hinner : (if 97 ≤ c ∧ c ≤ 122 then c - 32 else c) = c := if_neg (by omega)
        rw [hinner, if_neg (by omega)]
      · have hinner : (if 97 ≤ c ∧ c ≤ 122 then c - 32 else c) = c - 32 := if_pos (by omega)
        rw [hinner, if_pos (by omega)]
        omega
    have ih2 := ih (fun x hx => h x (by simp [hx]))
    simp only [asciiLower, asciiUpper] at ih2
    rw [hhead, ih2]

theorem asciiLower_hash_bytes (data : List Nat) :
    asciiLower (hash_bytes data) = hash_bytes data :=
  asciiLower_fixed _ (hexEncode_range (sha256 data) (sha256_mem_lt data))

theorem asciiLower_asciiUpper_hash_bytes (data : List Nat) :
    asciiLower (asciiUpper (hash_bytes data)) = hash_bytes data :=
  asciiLower_asciiUpper_fixed _ (hexEncode_range (sha256 data) (sha256_mem_lt data))

/-- Repeated add_entry keeps the digest cache unset when it started unset. -/
theorem foldl_add_entry_hash_none :
    ∀ (l : List TreeEntry) (t : Tree), t.hash = none →
    (List.foldl Tree.add_entry t l).hash = none := by
  intro l
  induction l with
  | nil => intro t h; exact h
  | cons e r ih => intro t _; exact ih (Tree.add_entry t e) rfl

theorem hashM_fst_of_none (t : Tree) (h : t.hash = none) :
    (t.hashM).1 = t.computeHash := by
  simp [Tree.hashM, h]

/-! ## Claim theorems -/

/-- Claim C3, counterexample: the digests named in the claim are 63-character
strings (they drop the final hex digit of the true SHA-256 values), so
hash_bytes, which always returns 64 characters, cannot equal them: the digest
of the empty input differs from the claimed value, as does the digest of
"hello world". -/
theorem C3_counterexample :
    hash_bytes [] ≠
      [101, 51, 98, 48, 99, 52, 52, 50, 57, 56, 102, 99, 49, 99, 49, 52, 57, 97, 102, 98,
       102, 52, 99, 56, 57, 57, 54, 102, 98, 57, 50, 52, 50, 55, 97, 101, 52, 49, 101, 52,
       54, 52, 57, 98, 57, 51, 52, 99, 97, 52, 57, 53, 57, 57, 49, 98, 55, 56, 53, 50, 98,
       56, 53] ∧
    hash_bytes [104, 101, 108, 108, 111, 32, 119, 111, 114, 108, 100] ≠
      [98, 57, 52, 100, 50, 55, 98, 57, 57, 51, 52, 100, 51, 101, 48, 56, 97, 53, 50, 101,
       53, 50, 100, 55, 100, 97, 55, 100, 97, 98, 102, 97, 99, 52, 56, 52, 101, 102, 101,
       51, 55, 97, 53, 51, 56, 48, 101, 101, 57, 48, 56, 56, 102, 55, 97, 99, 101, 50, 101,
       102, 99, 100, 101] ∧
    (hash_bytes []).length = 64 := by
  decide

/-- Claim C3, amended: digest of the empty byte sequence is
e3b0c44298fc1c149afbf4c8996fb92427ae41e4649b934ca495991b7852b855 and digest of
"hello world" is
b94d27b9934d3e08a52e52d7da7dabfac484efe37a5380ee9088f7ace2efcde9 (the full
64-character values, matching the test vectors in hash.rs). -/
theorem C3_theorem :
    hash_bytes [] =
      [101, 51, 98, 48, 99, 52, 52, 50, 57, 56, 102, 99, 49, 99, 49, 52, 57, 97, 102, 98,
       102, 52, 99, 56, 57, 57, 54, 102, 98, 57, 50, 52, 50, 55, 97, 101, 52, 49, 101, 52,
       54, 52, 57, 98, 57, 51, 52, 99, 97, 52, 57, 53, 57, 57, 49, 98, 55, 56, 53, 50, 98,
       56, 53, 53] ∧
    hash_bytes [104, 101, 108, 108, 111, 32, 119, 111, 114, 108, 100] =
      [98, 57, 52, 100, 50, 55, 98, 57, 57, 51, 52, 100, 51, 101, 48, 56, 97, 53, 50, 101,
       53, 50, 100, 55, 100, 97, 55, 100, 97, 98, 102, 97, 99, 52, 56, 52, 101, 102, 101,
       51, 55, 97, 53, 51, 56, 48, 101, 101, 57, 48, 56, 56, 102, 55, 97, 99, 101, 50, 101,
       102, 99, 100, 101, 57] := by
  constructor <;> decide

/-- Claim C9, counterexample: when the compressed size exceeds the original
size the formula 1 - compressed/original is negative, so the result does not
always lie in the interval [0, 1]; at original 100 and compressed 200 the
result is -1 (exact already in the f64 of the source). -/
theorem C9_counterexample : compression_ratio 100 200 < 0 := by
  norm_num [compression_ratio]

/-- Claim C9, amended: compression_ratio is 0 when the original size is 0,
equals 1 - compressed/original otherwise, and lies in [0, 1] whenever the
compressed size does not exceed the original size (it is negative when
compression enlarges the data). -/
theorem C9_theorem : ∀ original compressed : Nat,
    compression_ratio 0 compressed = 0 ∧
    (original ≠ 0 → compression_ratio original compressed =
      1 - (compressed : ℚ) / (original : ℚ)) ∧
    (compressed ≤ original →
      0 ≤ compression_ratio original compressed ∧
        compression_ratio original compressed ≤ 1) := by
  intro o c
  refine ⟨by simp [compression_ratio], fun ho => by simp [compression_ratio, ho],
    fun hco => ?_⟩
  by_cases ho : o = 0
  · subst ho; simp [compression_ratio]
  · have hopos : (0 : ℚ) < (o : ℚ) := by
      exact_mod_cast Nat.pos_of_ne_zero ho
    have hcle : (c : ℚ) ≤ (o : ℚ) := by exact_mod_cast hco
    have hcnn : (0 : ℚ) ≤ (c : ℚ) := by positivity
    rw [compression_ratio, if_neg ho]
    constructor
    · have hd : (c : ℚ) / (o : ℚ) ≤ 1 := div_le_one_of_le₀ hcle (le_of_lt hopos)
      linarith
    · have hd : (0 : ℚ) ≤ (c : ℚ) / (o : ℚ) := div_nonneg hcnn (le_of_lt hopos)
      linarith

/-- Claim C9, witness: at original 100, compressed 50 the hypotheses hold and
the ratio lies in [0, 1]. -/
theorem C9_witness :
    0 ≤ compression_ratio 100 50 ∧ compression_ratio 100 50 ≤ 1 :=
  (C9_theorem 100 50).2.2 (by norm_num)

/-- Claim C7: decompress inverts compress (at the default level 6) on the
empty input, a single byte, the sequence of all 256 byte values, and a
10,000-byte repetitive string. -/
theorem C7_theorem :
    decompress (compress []) = .ok [] ∧
    decompress (compress [97]) = .ok [97] ∧
    decompress (compress (List.range 256)) = .ok (List.range 256) ∧
    decompress (compress (List.replicate 10000 120)) = .ok (List.replicate 10000 120) := by
  refine ⟨zlibInflate_compress _ 6 (by simp),
    zlibInflate_compress _ 6 (by simp),
    zlibInflate_compress _ 6 (by norm_num [List.length_range]),
    zlibInflate_compress _ 6 (by norm_num [List.length_replicate])⟩

/-- Claim C4, counterexample: at limit usize::MAX the source computes
max_size + 1 in usize, which wraps to 0 in release builds, so the taken
reader reads nothing and decompress_with_limit returns the empty buffer
instead of the full decompressed bytes, although the limit exceeds the true
decompressed size. -/
theorem C4_counterexample :
    ([97] : List Nat).length ≤ USIZE_MAX ∧
    decompress_with_limit (compress_with_level [97] 6) USIZE_MAX = .ok [] ∧
    decompress_with_limit (compress_with_level [97] 6) USIZE_MAX ≠ .ok [97] := by
  decide

/-- Claim C4, amended: for compressed data of true decompressed size S (here
S below the stored-block cap of the model), decompress_with_limit succeeds
with the full bytes when S ≤ limit < usize::MAX (at limit = usize::MAX the
limit computation wraps and the empty buffer is returned instead), fails with
the InvalidData (size-limit) error when the limit is below S, and the limited
reader never produces more than its byte budget of output. -/
theorem C4_theorem : ∀ (x : List Nat) (level limit : Nat), x.length ≤ 65535 →
    ((x.length ≤ limit → limit < USIZE_MAX →
        decompress_with_limit (compress_with_level x level) limit = .ok x) ∧
      (limit < x.length →
        decompress_with_limit (compress_with_level x level) limit =
          .error ErrKind.invalidData) ∧
      (∀ k buf, zlibInflateTake (compress_with_level x level) k = .ok buf →
        buf.length ≤ k)) := by
  intro x level L hlen
  have hhdr := zlibFlg_checks level
  refine ⟨?_, ?_, fun k buf h => zlibInflateTake_length_le _ _ _ h⟩
  · intro hle hmax
    have htake : zlibInflateTake (compress_with_level x level) (L + 1) = .ok x := by
      rw [compress_with_level_cons]
      simp only [zlibInflateTake]
      rw [if_neg (show ¬(L + 1 = 0) by omega)]
      rw [if_pos ⟨by decide, hhdr.2.2, by decide, by omega, by omega, by omega, by omega⟩]
      rw [if_pos ⟨by decide, hhdr.1, hhdr.2.1, by trivial⟩]
      rw [len_field_eq hlen, len_field_eq (show 65535 - x.length ≤ 65535 by omega)]
      rw [if_pos rfl]
      rw [if_neg (by omega)]
      rw [if_pos (by simp [be4])]
      rw [List.drop_left' rfl, List.take_left' rfl]
      rw [if_pos (List.take_of_length_le (by simp [be4]))]
    have hw : (L + 1) % (USIZE_MAX + 1) = L + 1 := Nat.mod_eq_of_lt (by omega)
    simp only [decompress_with_limit, hw, htake]
    rw [if_neg (by omega)]
  · intro hlt
    have htake : zlibInflateTake (compress_with_level x level) (L + 1) =
        .ok ((x ++ be4 (adler32 x)).take (L + 1)) := by
      rw [compress_with_level_cons]
      simp only [zlibInflateTake]
      rw [if_neg (show ¬(L + 1 = 0) by omega)]
      rw [if_pos ⟨by decide, hhdr.2.2, by decide, by omega, by omega, by omega, by omega⟩]
      rw [if_pos ⟨by decide, hhdr.1, hhdr.2.1, by trivial⟩]
      rw [len_field_eq hlen, len_field_eq (show 65535 - x.length ≤ 65535 by omega)]
      rw [if_pos rfl]
      rw [if_pos (by omega)]
      rw [if_pos (by simp [be4]; omega)]
    have hU : (65535 : Nat) ≤ USIZE_MAX := by unfold USIZE_MAX; omega
    have hw : (L + 1) % (USIZE_MAX + 1) = L + 1 := Nat.mod_eq_of_lt (by omega)
    simp only [decompress_with_limit, hw, htake]
    rw [if_pos (by simp [List.length_take, be4]; omega)]

/-- Claim C4, witness: a three-byte input round-trips under limit 3 and is
rejected with the size-limit kind under limit 2, and the limited reader obeys
its budget. -/
theorem C4_witness :
    decompress_with_limit (compress_with_level [97, 98, 99] 6) 3 = .ok [97, 98, 99] ∧
    decompress_with_limit (compress_with_level [97, 98, 99] 6) 2 =
      .error ErrKind.invalidData :=
  ⟨(C4_theorem [97, 98, 99] 6 3 (by norm_num)).1 (by norm_num) (by decide),
   (C4_theorem [97, 98, 99] 6 2 (by norm_num)).2.1 (by norm_num)⟩

/-- Claim C5: every failure of decompress (malformed header, bad stored-block
framing, checksum mismatch, truncation) carries a kind other than
InvalidData, while the size-limit failure of decompress_with_limit is exactly
InvalidData, and the two kinds relevant to the claim (InvalidData for
size-limit, InvalidInput for corrupt data) are distinct. -/
theorem C5_theorem :
    (∀ data e, decompress data = .error e → e ≠ ErrKind.invalidData) ∧
    (∀ data limit buf, zlibInflateTake data (limit + 1) = .ok buf →
      limit < buf.length →
      decompress_with_limit data limit = .error ErrKind.invalidData) ∧
    ErrKind.invalidData ≠ ErrKind.invalidInput := by
  refine ⟨?_, ?_, by decide⟩
  · intro data e h
    unfold decompress zlibInflate at h
    split at h <;> first
      | (cases h <;> decide)
      | (split_ifs at h <;> (cases h <;> decide))
  · intro data L buf h hlt
    have hb := zlibInflateTake_ok_bound data (L + 1) buf h
    have hU : (65535 : Nat) ≤ USIZE_MAX := by unfold USIZE_MAX; omega
    have hw : (L + 1) % (USIZE_MAX + 1) = L + 1 := Nat.mod_eq_of_lt (by omega)
    simp only [decompress_with_limit, hw, h]
    rw [if_pos (by omega)]

/-- Claim C5, witness: a corrupt input fails decompress with a kind different
from InvalidData, and a valid two-byte input under limit 1 yields exactly the
InvalidData size-limit error. -/
theorem C5_witness :
    ErrKind.invalidInput ≠ ErrKind.invalidData ∧
    decompress_with_limit (compress [97, 98]) 1 = .error ErrKind.invalidData :=
  ⟨C5_theorem.1 [0] ErrKind.invalidInput (by decide),
   C5_theorem.2.1 (compress [97, 98]) 1 [97, 98] (by decide) (by decide)⟩

/-- Claim C1, counterexample: two distinct entries sharing the name "a" form
a two-element set whose two orderings produce different digests, because the
stable sort preserves the relative order of equal names and the entry hashes
then serialize in different orders. -/
theorem C1_counterexample :
    entryA1 ≠ entryA2 ∧
    ([entryA2, entryA1] : List TreeEntry).Perm [entryA1, entryA2] ∧
    ((Tree.with_entries [entryA1, entryA2]).hashM).1 ≠
      ((Tree.with_entries [entryA2, entryA1]).hashM).1 := by
  refine ⟨by decide, ?_, by decide⟩
  exact List.Perm.swap entryA1 entryA2 []

/-- Claim C1, amended: for entry lists with pairwise-distinct names, any
permutation yields the same digest through with_entries, and building the
tree by repeated add_entry from the empty tree yields the same digest as
with_entries. -/
theorem C1_theorem : ∀ l1 l2 : List TreeEntry, namesNodup l1 → l1.Perm l2 →
    (((Tree.with_entries l1).hashM).1 = ((Tree.with_entries l2).hashM).1 ∧
     ((List.foldl Tree.add_entry Tree.new l1).hashM).1 =
       ((Tree.with_entries l1).hashM).1) := by
  intro l1 l2 hnd hp
  have hsortEq : sortByName l1 = sortByName l2 := by
    apply sorted_nodup_perm_eq
    · exact (sortByName_perm l1).trans (hp.trans (sortByName_perm l2).symm)
    · exact sortByName_sorted l1
    · exact sortByName_sorted l2
    · exact namesNodup_of_perm (sortByName_perm l1).symm hnd
  constructor
  · rw [hashM_fst_of_none _ rfl, hashM_fst_of_none _ rfl]
    exact congrArg (fun l => hash_bytes (treeHashInput l)) hsortEq
  · have hperm : (List.foldl Tree.add_entry Tree.new l1).entries.Perm l1 := by
      have h1 := foldl_add_entry_perm l1 Tree.new
      simpa [Tree.new] using h1
    have hsorted := foldl_add_entry_sorted l1 Tree.new (by simp [Tree.new, sortedByName])
    have hEq : (List.foldl Tree.add_entry Tree.new l1).entries = sortByName l1 := by
      apply sorted_nodup_perm_eq
      · exact hperm.trans (sortByName_perm l1).symm
      · exact hsorted
      · exact sortByName_sorted l1
      · exact namesNodup_of_perm hperm.symm hnd
    rw [hashM_fst_of_none _ (foldl_add_entry_hash_none l1 Tree.new rfl),
      hashM_fst_of_none _ rfl]
    exact congrArg (fun l => hash_bytes (treeHashInput l)) hEq

/-- Claim C1, witness: two differently-ordered lists of two distinct names
give the same digest, also when built by repeated add_entry. -/
theorem C1_witness :
    ((Tree.with_entries [entryA1, TreeEntry.file [98] [104, 50]]).hashM).1 =
      ((Tree.with_entries [TreeEntry.file [98] [104, 50], entryA1]).hashM).1 ∧
    ((List.foldl Tree.add_entry Tree.new [entryA1, TreeEntry.file [98] [104, 50]]).hashM).1 =
      ((Tree.with_entries [entryA1, TreeEntry.file [98] [104, 50]]).hashM).1 :=
  C1_theorem [entryA1, TreeEntry.file [98] [104, 50]]
    [TreeEntry.file [98] [104, 50], entryA1]
    (by simp [namesNodup, entryA1, TreeEntry.file])
    (List.Perm.swap (TreeEntry.file [98] [104, 50]) entryA1 [])

/-- Claim C2: the digest of a tree is the digest of the canonical encoding
"tree <payload-length>\0" + payload, payload being the concatenation over the
name-sorted entries of "<mode> <name>\0" + the entry digest as hex text
(stated once for any tree satisfying the sortedness invariant, and once for
any tree built by with_entries). -/
theorem C2_theorem :
    (∀ t : Tree, sortedByName t.entries →
      t.computeHash = hash_bytes (specTreeEncoding t.entries)) ∧
    (∀ l : List TreeEntry,
      ((Tree.with_entries l).hashM).1 = hash_bytes (specTreeEncoding l)) := by
  have hpay : ∀ l : List TreeEntry, treeHashInput (sortByName l) = specTreeEncoding l := by
    intro l
    simp only [treeHashInput, specTreeEncoding]
    rw [← treePayload_eq_spec]
    simp [List.append_assoc]
  constructor
  · intro t hs
    have h2 : sortByName t.entries = t.entries := sortByName_of_sorted _ hs
    rw [Tree.computeHash, ← hpay t.entries, h2]
  · intro l
    rw [hashM_fst_of_none _ rfl]
    rw [Tree.computeHash, ← hpay l]
    rfl

/-- Claim C2, witness: the encoding law evaluated on a concrete sorted
tree. -/
theorem C2_witness :
    (Tree.with_entries [entryA1]).computeHash =
      hash_bytes (specTreeEncoding (Tree.with_entries [entryA1]).entries) :=
  C2_theorem.1 (Tree.with_entries [entryA1])
    (by simp [Tree.with_entries, sortByName, insertByName, sortedByName])

/-- Claim C8: verify accepts exactly the strings that equal the digest up to
ASCII case, and in particular accepts the uppercased digest. -/
theorem C8_theorem : ∀ data expected : List Nat,
    (verify data expected = true ↔
      asciiLower expected = asciiLower (hash_bytes data)) ∧
    verify data (asciiUpper (hash_bytes data)) = true := by
  intro data expected
  constructor
  · rw [asciiLower_hash_bytes]
    unfold verify
    constructor
    · intro h
      exact (beq_iff_eq.mp h).symm
    · intro h
      exact beq_iff_eq.mpr h.symm
  · unfold verify
    rw [asciiLower_asciiUpper_hash_bytes]
    exact beq_self_eq_true _

/-- Claim C8, witness: verify accepts the uppercased digest of a concrete
input. -/
theorem C8_witness :
    verify [104, 105] (asciiUpper (hash_bytes [104, 105])) = true :=
  (C8_theorem [104, 105] []).2

/-- Claim C6, counterexample: Commit exposes its content fields publicly, so
a Rust caller can overwrite the message after the digest was computed and
cached; the resulting commit has a cached digest that is present but no
longer the digest of its content. -/
theorem C6_counterexample :
    staleCommit.hash.isSome = true ∧
    staleCommit.hash ≠ some staleCommit.computeHash := by
  decide

/-- Claim C6, amended: through the exposed methods, no entity changes
content-bearing fields while keeping a cached digest: hash() computes and
caches the digest of the unchanged content (preserving cache consistency),
and add_entry, the only content mutator among the methods, resets the cache
to the unset state; direct writes to Commit's public fields (and the
unverified with_hash constructor) are excluded, as the counterexample
forces. -/
theorem C6_theorem : ∀ (b : Blob) (t : Tree) (c : Commit) (e : TreeEntry),
    (Blob.consistent b →
      Blob.consistent (b.hashM).2 ∧ ((b.hashM).2).content = b.content) ∧
    (Tree.consistent t →
      Tree.consistent (t.hashM).2 ∧ ((t.hashM).2).entries = t.entries) ∧
    ((t.add_entry e).hash = none) ∧
    (Commit.consistent c →
      Commit.consistent (c.hashM).2 ∧
      ((c.hashM).2).tree_hash = c.tree_hash ∧
      ((c.hashM).2).parent_hash = c.parent_hash ∧
      ((c.hashM).2).message = c.message ∧
      ((c.hashM).2).author_name = c.author_name ∧
      ((c.hashM).2).author_email = c.author_email ∧
      ((c.hashM).2).timestamp = c.timestamp) ∧
    Blob.consistent (Blob.new b.content) ∧
    Tree.consistent (Tree.with_entries t.entries) ∧
    Tree.consistent Tree.new := by
  intro b t c e
  refine ⟨?_, ?_, rfl, ?_, ?_, ?_, ?_⟩
  · intro hc
    unfold Blob.hashM
    cases hb : b.hash with
    | some h =>
      refine ⟨?_, rfl⟩
      intro h2 hh2
      exact hc h2 hh2
    | none =>
      refine ⟨?_, rfl⟩
      intro h2 hh2
      have hh3 : b.computeHash = h2 := Option.some.inj hh2
      exact hh3.symm
  · intro hc
    unfold Tree.hashM
    cases hb : t.hash with
    | some h =>
      refine ⟨?_, rfl⟩
      intro h2 hh2
      exact hc h2 hh2
    | none =>
      refine ⟨?_, rfl⟩
      intro h2 hh2
      have hh3 : t.computeHash = h2 := Option.some.inj hh2
      exact hh3.symm
  · intro hc
    unfold Commit.hashM
    cases hb : c.hash with
    | some h =>
      exact ⟨fun h2 hh2 => hc h2 hh2, rfl, rfl, rfl, rfl, rfl, rfl⟩
    | none =>
      refine ⟨?_, rfl, rfl, rfl, rfl, rfl, rfl⟩
      intro h2 hh2
      have hh3 : c.computeHash = h2 := Option.some.inj hh2
      exact hh3.symm
  · intro h hh
    simp [Blob.new] at hh
  · intro h hh
    simp [Tree.with_entries] at hh
  · intro h hh
    simp [Tree.new] at hh

/-- Claim C6, witness: the preservation statements applied to concrete
entities whose hypotheses hold. -/
theorem C6_witness :
    Tree.consistent ((Tree.new.hashM).2) ∧ ((Tree.new.hashM).2).entries = Tree.new.entries :=
  (C6_theorem (Blob.new []) Tree.new (Commit.initial [] [] [] [] []) entryA1).2.1
    (by intro h hh; simp [Tree.new] at hh)

/-- Claim C10: add_entry does not deduplicate names: inserting an entry whose
name already occurs grows the entry count by one, keeps both entries present
(the matching-name count grows by one), and find still returns the
earlier-inserted first match, since the sort is stable. -/
theorem C10_theorem : ∀ (t : Tree) (e a : TreeEntry),
    sortedByName t.entries → t.find e.name = some a →
    ((t.add_entry e).len = t.len + 1 ∧
     (t.add_entry e).find e.name = some a ∧
     e ∈ (t.add_entry e).entries ∧ a ∈ (t.add_entry e).entries ∧
     (t.add_entry e).entries.countP (fun x => x.name == e.name) =
       t.entries.countP (fun x => x.name == e.name) + 1) := by
  intro t e a hs hf
  have hperm : (t.add_entry e).entries.Perm (t.entries ++ [e]) := sortByName_perm _
  refine ⟨?_, ?_, ?_, ?_, ?_⟩
  · show (t.add_entry e).entries.length = t.entries.length + 1
    rw [hperm.length_eq]
    simp
  · show (sortByName (t.entries ++ [e])).find? (fun x => x.name == e.name) = some a
    rw [sortByName_append_single e t.entries hs]
    exact find?_insert_stable e a t.entries hs hf
  · exact hperm.mem_iff.mpr (by simp)
  · have ha : a ∈ t.entries := List.mem_of_find?_eq_some hf
    exact hperm.mem_iff.mpr (by simp [ha])
  · rw [hperm.countP_eq]
    simp

/-- Claim C10, witness: adding a second entry named "a" to a tree already
holding one: the length grows to 2, find still returns the original entry,
and both entries are present. -/
theorem C10_witness :
    ((Tree.with_entries [entryA1]).add_entry entryA2).len =
        (Tree.with_entries [entryA1]).len + 1 ∧
      ((Tree.with_entries [entryA1]).add_entry entryA2).find entryA2.name = some entryA1 ∧
      entryA2 ∈ ((Tree.with_entries [entryA1]).add_entry entryA2).entries ∧
      entryA1 ∈ ((Tree.with_entries [entryA1]).add_entry entryA2).entries ∧
      ((Tree.with_entries [entryA1]).add_entry entryA2).entries.countP
          (fun x => x.name == entryA2.name) =
        (Tree.with_entries [entryA1]).entries.countP (fun x => x.name == entryA2.name) + 1 :=
  C10_theorem (Tree.with_entries [entryA1]) entryA2 entryA1
    (by simp [Tree.with_entries, sortByName, insertByName, sortedByName]) (by decide)

end CTS
